import Mathlib

/-!
Verification of the BigQ rational layer (bigq.c) of the janet-bigz repository.

The rational layer stores a rational number as a pair (numerator, denominator)
of arbitrary-precision integers (BigZ).  We embed BigZ values as `Int` and a
possibly-invalid BigQ (`BQNULL`) as `Option (Int × Int)`.  The BigZ capability
itself (bigz.c) is not part of the sources; the few BigZ operations the
rational layer uses are modelled from the spec's BigInt contract (sign query,
compare, gcd, floor division, bit-length query, string conversion), each marked
`Modelled from the spec:` in its doc comment.  Allocation failure paths
(malloc returning NULL) are not modelled: in the embedding every allocation
succeeds, so `none` results arise exactly from the explicit argument checks.
-/

namespace BigQ

/-- Sign of a BigZ, mirroring BZ_MINUS / BZ_ZERO / BZ_PLUS. -/
inductive BzSign where
  | minus
  | zero
  | plus
deriving DecidableEq, Repr

/-- `BzGetSign`: sign query on a BigZ.  Modelled from the spec: the BigInt
contract provides a sign query (negative/zero/positive). -/
def BzGetSign (z : Int) : BzSign :=
  if z < 0 then .minus else if z = 0 then .zero else .plus

/-- `BzSetSign`: forces the sign field of a BigZ, keeping its magnitude.
Modelled from the spec: the BigInt contract provides negate/abs; setting the
sign to minus yields `-|z|`, to plus yields `|z|`. -/
def bzSetSign (z : Int) (s : BzSign) : Int :=
  match s with
  | .minus => -(z.natAbs : Int)
  | .plus => (z.natAbs : Int)
  | .zero => 0

/-- `BzAbs`: absolute value.  Modelled from the spec (BigInt contract). -/
def bzAbs (z : Int) : Int := (z.natAbs : Int)

/-- Fuel-driven bit counter used to model the BigZ bit-length query. -/
def bitLenFuel : Nat → Nat → Nat
  | 0, _ => 0
  | f + 1, n => if n = 0 then 0 else bitLenFuel f (n / 2) + 1

/-- `BzLength`: number of bits used by a BigZ.  Modelled from the spec: the
BigInt contract provides a magnitude/"digit length" query, and the binding
layer (module.c, bigz/length) documents it as "the number of bits used by a
bigz number".  Hence for a strictly positive denominator `d`,
`BzLength d = 1` exactly when `d = 1`. -/
def BzLength (z : Int) : Nat := bitLenFuel z.natAbs z.natAbs

/-- `BzGcd`: greatest common divisor (always non-negative).  Modelled from the
spec (BigInt contract provides GCD). -/
def BzGcd (a b : Int) : Int := (Int.gcd a b : Int)

/-- `BzDiv`: floor division.  Modelled from the spec (BigInt contract provides
floor-division); in the rational layer it is only applied to exact multiples
of the divisor. -/
def BzDiv (a b : Int) : Int := Int.fdiv a b

/-- `BzToInteger`: conversion of a BigZ to a machine integer, used by the
rational layer only to compare small values against 1.  Modelled from the
spec, which phrases both uses as exact comparisons with 1. -/
def BzToInteger (z : Int) : Int := z

/-- `BzCompare` on BigZ values.  Modelled from the spec (three-way compare). -/
def bzCompare (a b : Int) : Ordering :=
  if a < b then .lt else if b < a then .gt else .eq

/-- Creation mode of `BqCreateInternal` (bigq.c lines 61-64): `BQ_COPY` copies
the two inputs, `BQ_SET` consumes them.  In the value-level embedding the two
modes differ only in which sign-normalization steps they perform. -/
inductive BqCreateMode where
  | copy
  | set
deriving DecidableEq, Repr

/-- `BqCanonicalize` (bigq.c lines 205-243): divides numerator and denominator
by their gcd when that gcd is not 1.  The C function can also fail on
allocation; allocation always succeeds in the embedding, so the result is
always `some`. -/
def BqCanonicalize (q : Int × Int) : Option (Int × Int) :=
  let g := BzGcd q.1 q.2
  if BzToInteger g ≠ 1 then
    some (BzDiv q.1 g, BzDiv q.2 g)
  else
    some q

/-- `BqCreateInternal` (bigq.c lines 82-196), default build (the
`BQ_NEGATIVE_DENOMINATOR` switch not defined): rejects a non-positive
denominator, short-circuits a zero numerator to (0, 1), normalizes the signs
(numerator carries the sign, denominator forced positive) and canonicalizes
unless the denominator's bit length is 1. -/
def BqCreateInternal (n d : Int) (mode : BqCreateMode) : Option (Int × Int) :=
  if BzGetSign d ≠ BzSign.plus then
    none
  else if BzGetSign n = BzSign.zero then
    match mode with
    | .set => if BzToInteger d = 1 then some (n, d) else some (n, 1)
    | .copy => some (0, 1)
  else
    let p : Int × Int :=
      match mode with
      | .copy =>
        let cn := n
        let cd := bzAbs d
        (if BzGetSign n ≠ BzGetSign d then bzSetSign cn .minus else cn, cd)
      | .set =>
        let cn := n
        let cd := d
        let cn2 := if BzGetSign n ≠ BzGetSign d then bzSetSign cn .minus else cn
        (cn2, bzSetSign cd .plus)
    let cn3 := if BzGetSign n ≠ BzGetSign d then bzSetSign p.1 .minus else bzSetSign p.1 .plus
    if BzLength p.2 ≠ 1 then BqCanonicalize (cn3, p.2) else some (cn3, p.2)

/-- `BqCreate` (bigq.c lines 255-258): public constructor, copying mode. -/
def BqCreate (n d : Int) : Option (Int × Int) :=
  BqCreateInternal n d .copy

/-- `BqAdd` (bigq.c lines 289-345): same-denominator fast path adds the
numerators; otherwise cross-multiplies, then canonicalizes via the consuming
construction. -/
def BqAdd (a b : Option (Int × Int)) : Option (Int × Int) :=
  match a, b with
  | some (an, ad), some (bn, bd) =>
    if bzCompare ad bd = .eq then
      BqCreateInternal (an + bn) ad .set
    else
      BqCreateInternal (an * bd + ad * bn) (ad * bd) .set
  | _, _ => none

/-- `BqSubtract` (bigq.c lines 354-412). -/
def BqSubtract (a b : Option (Int × Int)) : Option (Int × Int) :=
  match a, b with
  | some (an, ad), some (bn, bd) =>
    if bzCompare ad bd = .eq then
      BqCreateInternal (an - bn) ad .set
    else
      BqCreateInternal (an * bd - ad * bn) (ad * bd) .set
  | _, _ => none

/-- `BqMultiply` (bigq.c lines 421-444). -/
def BqMultiply (a b : Option (Int × Int)) : Option (Int × Int) :=
  match a, b with
  | some (an, ad), some (bn, bd) =>
    BqCreateInternal (an * bn) (ad * bd) .set
  | _, _ => none

/-- `BqDiv` (bigq.c lines 453-484): numerator `an·bd`, denominator `ad·bn`,
then the numerator's sign is forced to the XOR of the two signs and the
denominator's sign forced positive before the consuming construction. -/
def BqDiv (a b : Option (Int × Int)) : Option (Int × Int) :=
  match a, b with
  | some (an, ad), some (bn, bd) =>
    let n := an * bd
    let d := ad * bn
    let n2 := if BzGetSign n ≠ BzGetSign d then bzSetSign n .minus else bzSetSign n .plus
    let d2 := bzSetSign d .plus
    BqCreateInternal n2 d2 .set
  | _, _ => none

/-- Comparison result, mirroring BQ_LT / BQ_EQ / BQ_GT / BQ_ERR. -/
inductive BqCmp where
  | lt
  | eq
  | gt
  | err
deriving DecidableEq, Repr

/-- Mapping from a BigZ comparison to a BigQ comparison (the switch at
bigq.c lines 544-552: default collapses to equal). -/
def bqCmpOfOrdering : Ordering → BqCmp
  | .lt => .lt
  | .gt => .gt
  | .eq => .eq

/-- `BqCompare` (bigq.c lines 496-554): sign shortcut when the numerators'
signs differ, direct numerator comparison for equal denominators, otherwise
cross-multiplication.  Error for an invalid operand (internal multiplication
never fails in the embedding). -/
def BqCompare (a b : Option (Int × Int)) : BqCmp :=
  match a, b with
  | some (an, ad), some (bn, bd) =>
    if BzGetSign an ≠ BzGetSign bn then
      if BzGetSign an = .minus then .lt
      else if BzGetSign an = .zero ∧ BzGetSign bn = .plus then .lt
      else .gt
    else if bzCompare ad bd = .eq then
      bqCmpOfOrdering (bzCompare an bn)
    else
      bqCmpOfOrdering (bzCompare (an * bd) (ad * bn))
  | _, _ => .err

/-- `BqNegate` (bigq.c lines 562-587): copy-construct, then flip the stored
numerator's sign according to the original numerator's sign. -/
def BqNegate (a : Option (Int × Int)) : Option (Int × Int) :=
  match a with
  | some (an, ad) =>
    match BqCreateInternal an ad .copy with
    | none => none
    | some r =>
      match BzGetSign an with
      | .minus => some (bzSetSign r.1 .plus, r.2)
      | .plus => some (bzSetSign r.1 .minus, r.2)
      | .zero => some r
  | none => none

/-- `BqAbs` (bigq.c lines 595-617): copy-construct, then force the stored
numerator positive when it is negative. -/
def BqAbs (a : Option (Int × Int)) : Option (Int × Int) :=
  match a with
  | some (an, ad) =>
    match BqCreateInternal an ad .copy with
    | none => none
    | some r =>
      if BzGetSign r.1 = .minus then some (bzSetSign r.1 .plus, r.2) else some r
  | none => none

/-- `BqInverse` (bigq.c lines 626-636): swap numerator and denominator and
re-run the full construction. -/
def BqInverse (a : Option (Int × Int)) : Option (Int × Int) :=
  match a with
  | some (an, ad) => BqCreateInternal ad an .copy
  | none => none

/-! ### Serialization

`BqToStringBufferExt` / `BqFromString` work on NUL-terminated C strings; we
embed a string as a `List Char` (the terminator is implicit: end of list).
The BigZ string conversions (`BzToString`, `BzFromString`,
`BzToStringBufferExt`) live in bigz.c, which is not among the sources; they
are modelled from the spec's BigInt contract. -/

/-- Digit value of a character, digits 0-9 then letters (either case) for
10-35.  Modelled from the spec: string⇄bigint conversion in bases up to 36. -/
def digitOfChar (c : Char) : Option Nat :=
  if '0' ≤ c ∧ c ≤ '9' then some (c.toNat - 48)
  else if 'a' ≤ c ∧ c ≤ 'z' then some (c.toNat - 87)
  else if 'A' ≤ c ∧ c ≤ 'Z' then some (c.toNat - 55)
  else none

/-- Character of a digit value (lowercase letters above 9). -/
def charOfDigit (d : Nat) : Char :=
  if d < 10 then Char.ofNat (48 + d) else Char.ofNat (87 + d)

/-- Little-endian base-`base` digits of `n`, driven by fuel (`n` itself is
always enough fuel for `base ≥ 2`). -/
def digitsFuel (base : Nat) : Nat → Nat → List Nat
  | 0, _ => []
  | _ + 1, 0 => []
  | f + 1, n + 1 => (n + 1) % base :: digitsFuel base f ((n + 1) / base)

/-- Big-endian digit characters of a natural number (`0` prints as "0"). -/
def natDigitsBE (base n : Nat) : List Char :=
  if n = 0 then ['0'] else ((digitsFuel base n n).map charOfDigit).reverse

/-- `BzToString`.  Modelled from the spec: integer formatting in the given
base; a minus sign for negative values, a plus sign only under the force-sign
policy and only for nonzero values. -/
def BzToString (z : Int) (base : Nat) (force : Bool) : List Char :=
  let mag := natDigitsBE base z.natAbs
  if z < 0 then '-' :: mag
  else if force ∧ 0 < z then '+' :: mag
  else mag

/-- Delimiter variants of the bigz string parser (spec §6: "parse until
space" and "parse until slash"). -/
inductive BzDelim where
  | untilSpace
  | untilSlash
deriving DecidableEq, Repr

/-- Whitespace skipped by `BqFromString` (bigq.c lines 912-917). -/
def bqIsSpace (c : Char) : Bool :=
  c = ' ' || c = '\t' || c = '\n' || c = '\r'

/-- Whether a character is a digit valid in the given base. -/
def isDigitChar (base : Nat) (c : Char) : Bool :=
  match digitOfChar c with
  | some dv => decide (dv < base)
  | none => false

/-- Whether a character list starts with a digit valid in the given base. -/
def headIsDigit (base : Nat) (l : List Char) : Bool :=
  match l with
  | [] => false
  | c :: _ => isDigitChar base c

/-- Value of a little-endian digit list. -/
def ofDigitsLE (base : Nat) : List Nat → Nat
  | [] => 0
  | d :: ds => d + base * ofDigitsLE base ds

/-- Split an optional single leading sign off a string. -/
def bzSignSplit (s : List Char) : Bool × List Char :=
  match s with
  | c :: rest =>
    if c = '-' then (true, rest)
    else if c = '+' then (false, rest)
    else (false, s)
  | [] => (false, [])

/-- Scan while the character is not a slash (the slash-search loop of
bigq.c lines 939-945). -/
def bqNotSlash (c : Char) : Bool := !(c == '/')

/-- Greedy digit scan: consumes leading digits valid for `base`, returning
accumulated value, count of digits consumed and the remaining characters. -/
def parseDigitsAux (base : Nat) : List Char → Nat → Nat → Nat × Nat × List Char
  | [], acc, k => (acc, k, [])
  | c :: rest, acc, k =>
    match digitOfChar c with
    | some dv =>
      if dv < base then parseDigitsAux base rest (acc * base + dv) (k + 1)
      else (acc, k, c :: rest)
    | none => (acc, k, c :: rest)

/-- Whether the characters left after the digit run are acceptable for the
given delimiter variant: end of string, or the delimiter itself. -/
def bzDelimOk : BzDelim → List Char → Bool
  | _, [] => true
  | .untilSlash, c :: _ => c = '/'
  | .untilSpace, c :: _ => bqIsSpace c

/-- `BzFromString`.  Modelled from the spec: an optional single sign, then a
nonempty digit run in the given base, terminated by the delimiter (or the end
of the string); anything else is a parse failure. -/
def BzFromString (s : List Char) (base : Nat) (delim : BzDelim) : Option Int :=
  match parseDigitsAux base (bzSignSplit s).2 0 0 with
  | (_, 0, _) => none
  | (v, _ + 1, rest) =>
    if bzDelimOk delim rest then
      some (if (bzSignSplit s).1 then -(v : Int) else (v : Int))
    else none

/-- The "not a number" sentinel text (bigq.c line 643); `BQNAN_LEN` is the
C `sizeof`, i.e. the string length plus the NUL terminator. -/
def BqNaN : List Char := ['#', '.', 'Q', 'N', 'a', 'N']

def BqNaNSize : Nat := BqNaN.length + 1

/-- Heap path of `BqToStringBufferExt` (bigq.c lines 666-833 with
`buf == NULL`): the sentinel for an invalid value, the bare numerator when
the denominator's bit length is 1, otherwise `numerator/denominator` with the
sign policy applied only to the numerator. -/
def BqToStringHeap (q : Option (Int × Int)) (base : Nat) (force : Bool) : List Char :=
  match q with
  | none => BqNaN
  | some (n, d) =>
    if BzLength d = 1 then BzToString n base force
    else BzToString n base force ++ '/' :: BzToString d base false

/-- Outcome of the caller-buffer path of `BqToStringBufferExt`: what the call
returns (`none` standing for the C `NULL`), the characters actually stored
into the caller's buffer (including the NUL terminator, written here as
`'\x00'`), and the values stored through the `slen` / `buflen` out-parameters
(`none` = left untouched). -/
structure BufWriteResult where
  ret : Option (List Char)
  written : List Char
  slenOut : Option Nat
  buflenOut : Option Nat
deriving DecidableEq, Repr

/-- Buffer path of the bigz-level `BzToStringBufferExt` for an integer.
Modelled from the spec: if the capacity is insufficient the call fails,
reports the required size through the length parameter and writes nothing;
otherwise it writes the text plus the NUL terminator. -/
def BzToStringBufferModel (z : Int) (base : Nat) (force : Bool) (cap : Nat) : BufWriteResult :=
  let s := BzToString z base force
  if cap < s.length + 1 then
    { ret := none, written := [], slenOut := none, buflenOut := some (s.length + 1) }
  else
    { ret := some s, written := s ++ ['\x00'], slenOut := some s.length, buflenOut := none }

/-- Caller-buffer path of `BqToStringBufferExt` (bigq.c lines 666-773, with
`buf ≠ NULL` and `buflen ≠ NULL`), transcribed branch by branch:
- invalid value: the NaN sentinel is written only if the capacity suffices
  (`*buflen >= sizeof(BqNaN)`), `*slen` is set to `sizeof(BqNaN)` either way
  and `*buflen` is never updated;
- denominator of bit length 1: delegate to the bigz buffer formatter;
- otherwise: the numerator and denominator strings are joined with a slash
  and written to the buffer together with the NUL terminator with NO capacity
  check, `*slen` receives the string length and `*buflen` is never updated. -/
def BqToStringBufferExt (q : Option (Int × Int)) (base : Nat) (force : Bool)
    (cap : Nat) : BufWriteResult :=
  match q with
  | none =>
    if cap ≥ BqNaNSize then
      { ret := some BqNaN, written := BqNaN ++ ['\x00'],
        slenOut := some BqNaNSize, buflenOut := none }
    else
      { ret := none, written := [], slenOut := some BqNaNSize, buflenOut := none }
  | some (n, d) =>
    if BzLength d = 1 then
      BzToStringBufferModel n base force cap
    else
      let ns := BzToString n base force
      let ds := BzToString d base false
      let len := ns.length + ds.length + 1
      { ret := some (ns ++ '/' :: ds), written := ns ++ '/' :: ds ++ ['\x00'],
        slenOut := some len, buflenOut := none }

/-- `BqFromString` (bigq.c lines 897-991): skip leading whitespace, allow a
single optional sign, look for a slash; without one, parse the whole text as
an integer over denominator 1; with one, reject a signed or space-prefixed
denominator, parse both parts and run the consuming construction. -/
def bqAfterSign (s : List Char) : List Char :=
  match s with
  | c :: rest => if c = '+' || c = '-' then rest else s
  | [] => []

def BqFromString (s0 : List Char) (base : Nat) : Option (Int × Int) :=
  if s0 = [] then none
  else
    match bqAfterSign (s0.dropWhile bqIsSpace) with
    | [] => none
    | c :: prest =>
      if c = '+' || c = '-' then none
      else
        match (c :: prest).dropWhile bqNotSlash with
        | [] =>
          match BzFromString (s0.dropWhile bqIsSpace) base .untilSpace with
          | some n => BqCreateInternal n 1 .set
          | none => none
        | _ :: afterSlash =>
          if (match afterSlash with
              | c2 :: _ => c2 = '+' || c2 = '-' || c2 = ' '
              | [] => false) then none
          else
            match BzFromString (s0.dropWhile bqIsSpace) base .untilSlash with
            | none => none
            | some n =>
              match BzFromString afterSlash base .untilSpace with
              | none => none
              | some dd => BqCreateInternal n dd .set

/-! ### Float interop

`BqFromLongDouble` (bigq.c lines 1000-1099) compares the input float against
mediants using long-double arithmetic; the embedding represents the float's
value as an exact rational (`ℚ`) and the loop's machine integers as
unbounded `Int`.  The unbounded C `for (;;)` loop is embedded with explicit
fuel: `none` means the fuel ran out before the loop broke. -/

/-- State of the Farey loop: lower bound `ln/ld`, upper bound `un/ud`. -/
structure FareyState where
  ln : Int
  ld : Int
  un : Int
  ud : Int
deriving DecidableEq, Repr

/-- One iteration of the Farey loop body (bigq.c lines 1025-1085): either a
result (the `break` cases, giving `rn/rd`) or the next state. -/
inductive FareyOut where
  | done (rn rd : Int)
  | cont (s : FareyState)
deriving DecidableEq, Repr

def fareyStep (num : ℚ) (maxd : Int) (s : FareyState) : FareyOut :=
  if num * ((s.ld + s.ud : Int) : ℚ) > ((s.ln + s.un : Int) : ℚ) then
    if maxd < s.ld + s.ud then .done s.un s.ud
    else .cont ⟨s.ln + s.un, s.ld + s.ud, s.un, s.ud⟩
  else if num * ((s.ld + s.ud : Int) : ℚ) = ((s.ln + s.un : Int) : ℚ) then
    if maxd ≥ s.ld + s.ud then .done (s.ln + s.un) (s.ld + s.ud)
    else if s.ld < s.ud then .done s.ln s.ld
    else .done s.un s.ud
  else
    if maxd < s.ld + s.ud then .done s.ln s.ld
    else .cont ⟨s.ln, s.ld, s.ln + s.un, s.ld + s.ud⟩

def fareyLoop (num : ℚ) (maxd : Int) : Nat → FareyState → Option (Int × Int)
  | 0, _ => none
  | fuel + 1, s =>
    match fareyStep num maxd s with
    | .done rn rd => some (rn, rd)
    | .cont s2 => fareyLoop num maxd fuel s2

/-- Initial state: lower bound 0/1, upper bound 1/0 (bigq.c lines 1002-1005). -/
def fareyInit : FareyState := ⟨0, 1, 1, 0⟩

/-- Verification infrastructure: invariant of the Farey loop states reachable
from `fareyInit`.  While the upper bound is still 1/0 (denominator 0), the
lower denominator is still 1 and the upper numerator still 1. -/
def FareyInv (s : FareyState) : Prop :=
  1 ≤ s.ld ∧ 0 ≤ s.ud ∧ 0 ≤ s.ln ∧ 0 ≤ s.un ∧ (s.ud = 0 → s.ld = 1 ∧ s.un = 1)

/-- Verification infrastructure: termination measure of the Farey loop.
While the upper denominator is 0 the lower numerator climbs towards ⌈x⌉;
afterwards the sum of the bound denominators climbs towards maxd. -/
def fareyMeasure (x : ℚ) (maxd : Int) (s : FareyState) : Nat :=
  (if s.ud = 0 then (⌈x⌉.toNat + 1) - s.ln.toNat else 0) +
    (maxd + 1 - (s.ld + s.ud)).toNat

/-- `BqFromLongDouble` (bigq.c lines 1000-1099): strip the sign, run the
Farey loop from 0/1 and 1/0, then build the rational from `sign·rn / rd`
through the consuming construction.  The outer `Option` is the fuel: `none`
means the loop had not yet broken after `fuel` iterations. -/
def BqFromLongDouble (num : ℚ) (maxd : Int) (fuel : Nat) : Option (Option (Int × Int)) :=
  match fareyLoop (if num < 0 then -num else num) maxd fuel fareyInit with
  | none => none
  | some (rn, rd) =>
    some (BqCreateInternal ((if num < 0 then -1 else 1) * rn) rd .set)

/-- Canonical form of a rational value (spec §3, invariants I1 and I2):
strictly positive denominator and coprime numerator/denominator. -/
def IsCanonical (p : Int × Int) : Prop :=
  0 < p.2 ∧ Int.gcd p.1 p.2 = 1

instance (p : Int × Int) : Decidable (IsCanonical p) := by
  unfold IsCanonical; infer_instance

theorem bitLenFuel_zero_iff (f n : Nat) (h : n ≤ f) : bitLenFuel f n = 0 ↔ n = 0 := by
  cases f with
  | zero => simp [bitLenFuel]; omega
  | succ f =>
    by_cases hn : n = 0 <;> simp [bitLenFuel, hn]

theorem bitLenFuel_one_iff (f n : Nat) (h : n ≤ f) : bitLenFuel f n = 1 ↔ n = 1 := by
  cases f with
  | zero =>
    have : n = 0 := by omega
    simp [bitLenFuel, this]
  | succ f =>
    by_cases hn : n = 0
    · simp [bitLenFuel, hn]
    · have hdiv : n / 2 ≤ f := by omega
      simp only [bitLenFuel, hn, if_false]
      have hz := bitLenFuel_zero_iff f (n / 2) hdiv
      omega

theorem BzLength_one_iff {d : Int} (hd : 0 < d) : BzLength d = 1 ↔ d = 1 := by
  unfold BzLength
  rw [bitLenFuel_one_iff _ _ (le_refl _)]
  omega

theorem canonicalize_spec {n d : Int} (hn : n ≠ 0) (hd : 0 < d) {p : Int × Int}
    (h : BqCanonicalize (n, d) = some p) :
    0 < p.2 ∧ Int.gcd p.1 p.2 = 1 ∧ p.2 ≤ d ∧ p.1 * d = n * p.2 := by
  have hg : 0 < Int.gcd n d := Int.gcd_pos_of_ne_zero_left d hn
  have hgcd1 : Int.gcd (n / (Int.gcd n d : Int)) (d / (Int.gcd n d : Int)) = 1 :=
    Int.gcd_div_gcd_div_gcd hg
  have hdvdn : (Int.gcd n d : Int) ∣ n := Int.gcd_dvd_left
  have hdvdd : (Int.gcd n d : Int) ∣ d := Int.gcd_dvd_right
  unfold BqCanonicalize BzGcd BzToInteger BzDiv at h
  set g : Int := (Int.gcd n d : Int) with hgdef
  have hgpos : (0 : Int) < g := by rw [hgdef]; exact_mod_cast hg
  have hgz : g ≠ 0 := by omega
  have hg1le : (1 : Int) ≤ g := by omega
  by_cases h1 : g = 1
  · simp only [h1, ne_eq, not_true_eq_false, if_false] at h
    cases h
    refine ⟨hd, ?_, le_refl d, by ring⟩
    have hcast : (Int.gcd n d : Int) = 1 := by rw [← hgdef]; exact h1
    exact_mod_cast hcast
  · simp only [ne_eq, h1, not_false_eq_true, if_true] at h
    cases h
    have hfn : Int.fdiv n g = n / g := Int.fdiv_eq_ediv_of_dvd hdvdn
    have hfd : Int.fdiv d g = d / g := Int.fdiv_eq_ediv_of_dvd hdvdd
    obtain ⟨n2, hn2⟩ := hdvdn
    obtain ⟨d2, hd2⟩ := hdvdd
    have hne : n / g = n2 := by rw [hn2]; exact Int.mul_ediv_cancel_left _ hgz
    have hde : d / g = d2 := by rw [hd2]; exact Int.mul_ediv_cancel_left _ hgz
    have hd2pos : 0 < d2 := by
      rcases le_or_lt d2 0 with hle | hlt
      · exfalso
        have : d ≤ 0 := by
          rw [hd2]
          exact mul_nonpos_of_nonneg_of_nonpos (le_of_lt hgpos) hle
        omega
      · exact hlt
    refine ⟨?_, ?_, ?_, ?_⟩
    · simpa [hfd, hde] using hd2pos
    · simpa [hfn, hfd] using hgcd1
    · rw [hfd, hde]
      nlinarith [hd2, hd2pos, hg1le]
    · rw [hfn, hfd, hne, hde]
      calc n2 * d = n2 * (g * d2) := by rw [← hd2]
        _ = (g * n2) * d2 := by ring
        _ = n * d2 := by rw [← hn2]

theorem createInternal_pos {n d : Int} (mode : BqCreateMode) (hn : n ≠ 0) (hd : 0 < d) :
    BqCreateInternal n d mode =
      if BzLength d ≠ 1 then BqCanonicalize (n, d) else some (n, d) := by
  have hsd : BzGetSign d = BzSign.plus := by
    unfold BzGetSign
    rw [if_neg (by omega), if_neg (by omega)]
  rcases lt_trichotomy n 0 with hlt | heq | hgt
  · have hsn : BzGetSign n = BzSign.minus := by unfold BzGetSign; rw [if_pos hlt]
    have habs : -(n.natAbs : Int) = n := by omega
    have habs2 : -|n| = n := by rw [abs_of_neg hlt]; ring
    have hdabs : (d.natAbs : Int) = d := by omega
    have hdabs2 : |d| = d := abs_of_pos hd
    cases mode <;>
      simp [BqCreateInternal, hsd, hsn, bzSetSign, bzAbs, habs, habs2, hdabs, hdabs2]
  · omega
  · have hsn : BzGetSign n = BzSign.plus := by
      unfold BzGetSign; rw [if_neg (by omega), if_neg (by omega)]
    have habs : (n.natAbs : Int) = n := by omega
    have habs2 : |n| = n := abs_of_pos hgt
    have hdabs : (d.natAbs : Int) = d := by omega
    have hdabs2 : |d| = d := abs_of_pos hd
    cases mode <;>
      simp [BqCreateInternal, hsd, hsn, bzSetSign, bzAbs, habs, habs2, hdabs, hdabs2]

theorem createInternal_zero {d : Int} (mode : BqCreateMode) (hd : 0 < d) :
    BqCreateInternal 0 d mode = some (0, 1) := by
  have hsd : BzGetSign d = BzSign.plus := by
    unfold BzGetSign; rw [if_neg (by omega), if_neg (by omega)]
  have hs0 : BzGetSign 0 = BzSign.zero := by unfold BzGetSign; norm_num
  have hs1 : BzGetSign 1 = BzSign.plus := by unfold BzGetSign; norm_num
  cases mode
  · simp [BqCreateInternal, hsd, hs0]
  · by_cases hd1 : d = 1 <;> simp [BqCreateInternal, hsd, hs0, hs1, BzToInteger, hd1]

theorem createInternal_canonical {n d : Int} {mode : BqCreateMode} {p : Int × Int}
    (h : BqCreateInternal n d mode = some p) : IsCanonical p := by
  by_cases hd : 0 < d
  · by_cases hn : n = 0
    · subst hn
      rw [createInternal_zero mode hd] at h
      cases h
      exact ⟨by omega, by simp [Int.gcd]⟩
    · rw [createInternal_pos mode hn hd] at h
      by_cases hlen : BzLength d ≠ 1
      · rw [if_pos hlen] at h
        obtain ⟨h1, h2, _, _⟩ := canonicalize_spec hn hd h
        exact ⟨h1, h2⟩
      · rw [if_neg hlen] at h
        cases h
        have hd1 : d = 1 := by
          rw [not_not, BzLength_one_iff hd] at hlen
          exact hlen
        exact ⟨hd, by simp [hd1, Int.gcd]⟩
  · exfalso
    have hsd : BzGetSign d ≠ BzSign.plus := by
      unfold BzGetSign
      rcases lt_trichotomy d 0 with h1 | h1 | h1
      · simp [h1]
      · simp [h1]
      · omega
    simp [BqCreateInternal, hsd] at h

theorem create_of_canonical {n d : Int} (mode : BqCreateMode) (h : IsCanonical (n, d)) :
    BqCreateInternal n d mode = some (n, d) := by
  obtain ⟨hd, hg⟩ := h
  simp only at hd hg
  by_cases hn : n = 0
  · subst hn
    have hd1 : d = 1 := by
      have : d.natAbs = 1 := by simpa [Int.gcd] using hg
      omega
    subst hd1
    have hsd : BzGetSign 1 = BzSign.plus := by unfold BzGetSign; norm_num
    cases mode <;>
      simp [BqCreateInternal, hsd, BzGetSign, BzToInteger]
  · rw [createInternal_pos mode hn hd]
    by_cases hlen : BzLength d ≠ 1
    · rw [if_pos hlen]
      unfold BqCanonicalize BzGcd BzToInteger
      simp [hg]
    · rw [if_neg hlen]

theorem sign_of_neg {z : Int} (h : z < 0) : BzGetSign z = .minus := by
  unfold BzGetSign; rw [if_pos h]

theorem sign_of_zero : BzGetSign 0 = .zero := by
  unfold BzGetSign; norm_num

theorem sign_of_pos {z : Int} (h : 0 < z) : BzGetSign z = .plus := by
  unfold BzGetSign; rw [if_neg (by omega), if_neg (by omega)]

theorem gcd_bzSetSign (a b : Int) (s : BzSign) (hs : s ≠ .zero) :
    Int.gcd (bzSetSign a s) b = Int.gcd a b := by
  cases s <;> simp [bzSetSign, Int.gcd, Int.natAbs_abs] at hs ⊢

theorem BqAdd_canonical {a b : Option (Int × Int)} {p : Int × Int}
    (h : BqAdd a b = some p) : IsCanonical p := by
  rcases a with _ | ⟨an, ad⟩ <;> rcases b with _ | ⟨bn, bd⟩ <;>
    simp only [BqAdd] at h <;> try exact Option.noConfusion h
  split at h <;> exact createInternal_canonical h

theorem BqSubtract_canonical {a b : Option (Int × Int)} {p : Int × Int}
    (h : BqSubtract a b = some p) : IsCanonical p := by
  rcases a with _ | ⟨an, ad⟩ <;> rcases b with _ | ⟨bn, bd⟩ <;>
    simp only [BqSubtract] at h <;> try exact Option.noConfusion h
  split at h <;> exact createInternal_canonical h

theorem BqMultiply_canonical {a b : Option (Int × Int)} {p : Int × Int}
    (h : BqMultiply a b = some p) : IsCanonical p := by
  rcases a with _ | ⟨an, ad⟩ <;> rcases b with _ | ⟨bn, bd⟩ <;>
    simp only [BqMultiply] at h <;> try exact Option.noConfusion h
  exact createInternal_canonical h

theorem BqDiv_canonical {a b : Option (Int × Int)} {p : Int × Int}
    (h : BqDiv a b = some p) : IsCanonical p := by
  rcases a with _ | ⟨an, ad⟩ <;> rcases b with _ | ⟨bn, bd⟩ <;>
    simp only [BqDiv] at h <;> try exact Option.noConfusion h
  exact createInternal_canonical h

theorem BqNegate_canonical {a : Option (Int × Int)} {p : Int × Int}
    (h : BqNegate a = some p) : IsCanonical p := by
  rcases a with _ | ⟨an, ad⟩
  · exact Option.noConfusion h
  · rcases hr : BqCreateInternal an ad .copy with _ | ⟨rn, rd⟩ <;>
      simp only [BqNegate, hr] at h
    · exact Option.noConfusion h
    · have hc := createInternal_canonical hr
      rcases hc with ⟨h1, h2⟩
      cases hs : BzGetSign an <;> simp only [hs] at h <;> cases h
      · exact ⟨h1, by rw [gcd_bzSetSign _ _ _ (by simp)]; exact h2⟩
      · exact ⟨h1, h2⟩
      · exact ⟨h1, by rw [gcd_bzSetSign _ _ _ (by simp)]; exact h2⟩

theorem BqAbs_canonical {a : Option (Int × Int)} {p : Int × Int}
    (h : BqAbs a = some p) : IsCanonical p := by
  rcases a with _ | ⟨an, ad⟩
  · exact Option.noConfusion h
  · rcases hr : BqCreateInternal an ad .copy with _ | ⟨rn, rd⟩ <;>
      simp only [BqAbs, hr] at h
    · exact Option.noConfusion h
    · have hc := createInternal_canonical hr
      rcases hc with ⟨h1, h2⟩
      split at h <;> cases h
      · exact ⟨h1, by rw [gcd_bzSetSign _ _ _ (by simp)]; exact h2⟩
      · exact ⟨h1, h2⟩

theorem BqInverse_canonical {a : Option (Int × Int)} {p : Int × Int}
    (h : BqInverse a = some p) : IsCanonical p := by
  rcases a with _ | ⟨an, ad⟩
  · exact Option.noConfusion h
  · simp only [BqInverse] at h
    exact createInternal_canonical h

theorem BqFromString_canonical {s : List Char} {base : Nat} {p : Int × Int}
    (h : BqFromString s base = some p) : IsCanonical p := by
  unfold BqFromString at h
  repeat' split at h
  all_goals first
    | exact Option.noConfusion h
    | exact createInternal_canonical h

theorem BqFromLongDouble_canonical {num : ℚ} {maxd : Int} {fuel : Nat} {p : Int × Int}
    (h : BqFromLongDouble num maxd fuel = some (some p)) : IsCanonical p := by
  unfold BqFromLongDouble at h
  split at h
  · exact Option.noConfusion h
  · exact createInternal_canonical (Option.some.inj h)

/-- C1: every non-Invalid result of the public operations (create, add,
subtract, multiply, divide, negate, abs, inverse, fromString, fromFloat) is
in canonical form: coprime numerator and denominator
(`gcd(|N|, D) = 1`) and strictly positive denominator (`D > 0`). -/
theorem results_canonical_C1
    (n d : Int) (mode : BqCreateMode) (a b : Option (Int × Int))
    (s : List Char) (base : Nat) (num : ℚ) (maxd : Int) (fuel : Nat)
    (p : Int × Int) :
    (BqCreate n d = some p → IsCanonical p) ∧
    (BqCreateInternal n d mode = some p → IsCanonical p) ∧
    (BqAdd a b = some p → IsCanonical p) ∧
    (BqSubtract a b = some p → IsCanonical p) ∧
    (BqMultiply a b = some p → IsCanonical p) ∧
    (BqDiv a b = some p → IsCanonical p) ∧
    (BqNegate a = some p → IsCanonical p) ∧
    (BqAbs a = some p → IsCanonical p) ∧
    (BqInverse a = some p → IsCanonical p) ∧
    (BqFromString s base = some p → IsCanonical p) ∧
    (BqFromLongDouble num maxd fuel = some (some p) → IsCanonical p) :=
  ⟨fun h => createInternal_canonical h,
   fun h => createInternal_canonical h,
   BqAdd_canonical,
   BqSubtract_canonical,
   BqMultiply_canonical,
   BqDiv_canonical,
   BqNegate_canonical,
   BqAbs_canonical,
   BqInverse_canonical,
   BqFromString_canonical,
   BqFromLongDouble_canonical⟩

theorem results_canonical_C1_witness :
    IsCanonical (2, 3) ∧ IsCanonical (-1, 3) ∧ IsCanonical (1, 2) :=
  ⟨(results_canonical_C1 0 1 .copy (some (1, 6)) (some (1, 2)) [] 10 0 1 0 (2, 3)).2.2.1
     (by decide),
   (results_canonical_C1 0 1 .copy (some (1, 3)) none [] 10 0 1 0 (-1, 3)).2.2.2.2.2.2.1
     (by decide),
   (results_canonical_C1 0 1 .copy none none ['3', '/', '6'] 10 0 1 0 (1, 2)).2.2.2.2.2.2.2.2.2.1
     (by decide)⟩

/-- C2: dividing any rational by the canonical zero value (0, 1) yields the
Invalid result: the raw denominator `ad·0` is zero, which the construction
rejects. -/
theorem div_by_zero_C2 (a : Int × Int) : BqDiv (some a) (some (0, 1)) = none := by
  rcases a with ⟨an, ad⟩
  simp [BqDiv, bzSetSign, BqCreateInternal, BzGetSign]

/-- C8: constructing a rational from numerator 0 and any strictly positive
denominator, in either creation mode (public copying create or consuming
internal construction), yields exactly the canonical pair (0, 1). -/
theorem create_zero_C8 (d : Int) (mode : BqCreateMode) (hd : 0 < d) :
    BqCreateInternal 0 d mode = some (0, 1) ∧ BqCreate 0 d = some (0, 1) :=
  ⟨createInternal_zero mode hd, createInternal_zero .copy hd⟩

theorem create_zero_C8_witness :
    BqCreateInternal 0 12345 .set = some (0, 1) ∧ BqCreate 0 12345 = some (0, 1) :=
  create_zero_C8 12345 .set (by decide)

/-- C10: the inverse of the canonical zero (0, 1) swaps the pair to (1, 0)
and re-runs the construction, which rejects the zero denominator, so the
result is Invalid. -/
theorem inverse_zero_C10 :
    BqInverse (some (0, 1)) = BqCreateInternal 1 0 .copy ∧
    BqCreateInternal 1 0 .copy = none :=
  ⟨rfl, rfl⟩

theorem bqCmp_lt_iff (x y : Int) : bqCmpOfOrdering (bzCompare x y) = .lt ↔ x < y := by
  unfold bzCompare bqCmpOfOrdering
  split_ifs <;> simp <;> omega

theorem bqCmp_eq_iff (x y : Int) : bqCmpOfOrdering (bzCompare x y) = .eq ↔ x = y := by
  unfold bzCompare bqCmpOfOrdering
  split_ifs <;> simp <;> omega

theorem bqCmp_gt_iff (x y : Int) : bqCmpOfOrdering (bzCompare x y) = .gt ↔ y < x := by
  unfold bzCompare bqCmpOfOrdering
  split_ifs <;> simp <;> omega

theorem bqCmp_ne_err (x y : Int) : bqCmpOfOrdering (bzCompare x y) ≠ .err := by
  unfold bzCompare bqCmpOfOrdering
  split_ifs <;> simp

/-- The sign shortcut and the equal-denominator shortcut of `BqCompare` agree
with plain cross-multiplication whenever both denominators are positive. -/
theorem compare_eq_cross (an ad bn bd : Int) (ha : 0 < ad) (hb : 0 < bd) :
    BqCompare (some (an, ad)) (some (bn, bd)) =
      bqCmpOfOrdering (bzCompare (an * bd) (ad * bn)) := by
  show (if BzGetSign an ≠ BzGetSign bn then
          if BzGetSign an = BzSign.minus then BqCmp.lt
          else if BzGetSign an = BzSign.zero ∧ BzGetSign bn = BzSign.plus then BqCmp.lt
          else BqCmp.gt
        else if bzCompare ad bd = Ordering.eq then bqCmpOfOrdering (bzCompare an bn)
        else bqCmpOfOrdering (bzCompare (an * bd) (ad * bn))) =
      bqCmpOfOrdering (bzCompare (an * bd) (ad * bn))
  by_cases hsgn : BzGetSign an ≠ BzGetSign bn
  · rw [if_pos hsgn]
    rcases lt_trichotomy an 0 with h1 | h1 | h1
    · rw [if_pos (sign_of_neg h1)]
      have hbn : 0 ≤ bn := by
        by_contra hc
        rw [sign_of_neg h1, sign_of_neg (by omega)] at hsgn
        exact hsgn rfl
      have : an * bd < ad * bn := by nlinarith
      rw [eq_comm, bqCmp_lt_iff]
      exact this
    · subst h1
      rw [if_neg (by rw [sign_of_zero]; simp)]
      rcases lt_trichotomy bn 0 with h2 | h2 | h2
      · rw [if_neg (by rw [sign_of_zero, sign_of_neg h2]; simp)]
        have : ad * bn < 0 * bd := by nlinarith
        rw [eq_comm, bqCmp_gt_iff]
        exact this
      · subst h2
        exfalso
        exact hsgn rfl
      · rw [if_pos (by rw [sign_of_zero, sign_of_pos h2]; simp)]
        have : 0 * bd < ad * bn := by nlinarith
        rw [eq_comm, bqCmp_lt_iff]
        exact this
    · rw [if_neg (by rw [sign_of_pos h1]; simp)]
      have hbn : bn ≤ 0 := by
        by_contra hc
        rw [sign_of_pos h1, sign_of_pos (by omega)] at hsgn
        exact hsgn rfl
      rw [if_neg ?hz]
      case hz =>
        rw [sign_of_pos h1]
        simp
      have : ad * bn < an * bd := by nlinarith
      rw [eq_comm, bqCmp_gt_iff]
      exact this
  · rw [if_neg hsgn]
    by_cases hdd : bzCompare ad bd = .eq
    · rw [if_pos hdd]
      have hadbd : ad = bd := by
        unfold bzCompare at hdd
        split_ifs at hdd with h1 h2
        omega
      subst hadbd
      have e1 : an * ad < ad * bn ↔ an < bn := by
        rw [mul_comm ad bn]
        exact mul_lt_mul_right ha
      have e2 : ad * bn < an * ad ↔ bn < an := by
        rw [mul_comm ad bn]
        exact mul_lt_mul_right ha
      unfold bzCompare bqCmpOfOrdering
      split_ifs <;> first | rfl | omega
    · rw [if_neg hdd]

/-- C5: for valid operands with positive denominators, `BqCompare` returns
LessThan / Equal / GreaterThan exactly according to the sign of
`an·bd - ad·bn` (the sign shortcut and equal-denominator shortcut agree with
cross-multiplication), never Error; Error is produced for an Invalid
operand. -/
theorem compare_spec_C5 (an ad bn bd : Int) (ha : 0 < ad) (hb : 0 < bd) :
    (BqCompare (some (an, ad)) (some (bn, bd)) = .lt ↔ an * bd < ad * bn) ∧
    (BqCompare (some ((an : Int), ad)) (some (bn, bd)) = .eq ↔ an * bd = ad * bn) ∧
    (BqCompare (some (an, ad)) (some (bn, bd)) = .gt ↔ ad * bn < an * bd) ∧
    BqCompare (some (an, ad)) (some (bn, bd)) ≠ .err ∧
    BqCompare none (some (bn, bd)) = .err ∧
    BqCompare (some (an, ad)) none = .err := by
  rw [compare_eq_cross an ad bn bd ha hb]
  exact ⟨bqCmp_lt_iff _ _, bqCmp_eq_iff _ _, bqCmp_gt_iff _ _, bqCmp_ne_err _ _, rfl, rfl⟩

theorem compare_spec_C5_witness :
    (BqCompare (some (1, 2)) (some (1, 3)) = .gt ↔ (2 : Int) * 1 < 1 * 3) ∧
    BqCompare (some (1, 2)) (some (1, 3)) ≠ .err :=
  ⟨(compare_spec_C5 1 2 1 3 (by decide) (by decide)).2.2.1,
   (compare_spec_C5 1 2 1 3 (by decide) (by decide)).2.2.2.1⟩

/-- C3 (refuted; evaluation of the code at the failing input): for the valid
rational 1/2 in base 10 the buffer formatter needs 4 bytes ("1/2" plus the
NUL terminator), yet called with a 3-byte caller buffer it does NOT return
the no-output signal: it returns the buffer, stores nothing in the `buflen`
out-parameter, and writes all 4 bytes — one past the caller's capacity.  The
claimed capacity check exists only in the invalid-value branch and in the
bigz delegate used when the denominator is 1; the general
numerator/denominator branch (bigq.c lines 723-773) never compares the
required size against `*buflen`. -/
theorem buffer_overflow_C3 :
    (BqToStringBufferExt (some (1, 2)) 10 false 3).ret = some ['1', '/', '2'] ∧
    (BqToStringBufferExt (some (1, 2)) 10 false 3).written = ['1', '/', '2', '\x00'] ∧
    (BqToStringBufferExt (some (1, 2)) 10 false 3).written.length = 4 ∧
    (BqToStringBufferExt (some (1, 2)) 10 false 3).buflenOut = none ∧
    3 < 4 := by
  refine ⟨rfl, rfl, rfl, rfl, by omega⟩

theorem fareyStep_done_le {num : ℚ} {maxd : Int} {s : FareyState} {rn rd : Int}
    (h : fareyStep num maxd s = .done rn rd) (h1 : s.ld ≤ maxd) (h2 : s.ud ≤ maxd) :
    rd ≤ maxd := by
  unfold fareyStep at h
  split_ifs at h <;> cases h <;> omega

theorem fareyStep_cont_bounds {num : ℚ} {maxd : Int} {s s2 : FareyState}
    (h : fareyStep num maxd s = .cont s2) (h1 : s.ld ≤ maxd) (h2 : s.ud ≤ maxd) :
    s2.ld ≤ maxd ∧ s2.ud ≤ maxd := by
  unfold fareyStep at h
  split_ifs at h <;> cases h <;> constructor <;> dsimp only <;> omega

theorem fareyLoop_den_le (num : ℚ) (maxd : Int) :
    ∀ (fuel : Nat) (s : FareyState), s.ld ≤ maxd → s.ud ≤ maxd →
      ∀ rn rd : Int, fareyLoop num maxd fuel s = some (rn, rd) → rd ≤ maxd := by
  intro fuel
  induction fuel with
  | zero =>
    intro s h1 h2 rn rd h
    exact Option.noConfusion h
  | succ f ih =>
    intro s h1 h2 rn rd h
    unfold fareyLoop at h
    rcases hstep : fareyStep num maxd s with ⟨rn2, rd2⟩ | s2 <;> rw [hstep] at h
    · cases h
      exact fareyStep_done_le hstep h1 h2
    · obtain ⟨g1, g2⟩ := fareyStep_cont_bounds hstep h1 h2
      exact ih s2 g1 g2 rn rd h

theorem createInternal_d_pos {n d : Int} {mode : BqCreateMode} {p : Int × Int}
    (h : BqCreateInternal n d mode = some p) : 0 < d := by
  by_contra hc
  have hsd : BzGetSign d ≠ BzSign.plus := by
    unfold BzGetSign
    rcases lt_trichotomy d 0 with h1 | h1 | h1
    · simp [h1]
    · simp [h1]
    · omega
  simp [BqCreateInternal, hsd] at h

theorem createInternal_den_le {n d : Int} {mode : BqCreateMode} {p : Int × Int}
    (h : BqCreateInternal n d mode = some p) : p.2 ≤ d ∨ p.2 = 1 := by
  have hd : 0 < d := createInternal_d_pos h
  by_cases hn : n = 0
  · subst hn
    rw [createInternal_zero mode hd] at h
    cases h
    right
    rfl
  · rw [createInternal_pos mode hn hd] at h
    by_cases hlen : BzLength d ≠ 1
    · rw [if_pos hlen] at h
      obtain ⟨_, _, hle, _⟩ := canonicalize_spec hn hd h
      exact Or.inl hle
    · rw [if_neg hlen] at h
      cases h
      exact Or.inl (le_refl d)

/-- C6: whenever `maxDenominator ≥ 1` and `fromFloat` returns a valid
rational (within any fuel bound on the loop), the denominator of the result
does not exceed `maxDenominator`: the loop only ever moves a bound to the
mediant under the guard `maxd ≥ md`, every break returns a bound or a guarded
mediant, and the final construction can only shrink the denominator (or
collapse it to 1 for a zero numerator). -/
theorem fromFloat_den_bound_C6 (num : ℚ) (maxd : Int) (fuel : Nat) (N D : Int)
    (hmax : 1 ≤ maxd)
    (h : BqFromLongDouble num maxd fuel = some (some (N, D))) : D ≤ maxd := by
  unfold BqFromLongDouble at h
  rcases hloop : fareyLoop (if num < 0 then -num else num) maxd fuel fareyInit
      with _ | ⟨rn, rd⟩ <;> rw [hloop] at h
  · exact Option.noConfusion h
  · have hrd : rd ≤ maxd := by
      refine fareyLoop_den_le _ maxd fuel fareyInit ?_ ?_ rn rd hloop
      · show (1 : Int) ≤ maxd
        omega
      · show (0 : Int) ≤ maxd
        omega
    have h2 : BqCreateInternal ((if num < 0 then -1 else 1) * rn) rd .set = some (N, D) :=
      Option.some.inj h
    rcases createInternal_den_le h2 with hle | h1
    · exact le_trans hle hrd
    · simp only at h1
      omega

theorem fareyLoop_succ (num : ℚ) (maxd : Int) (fuel : Nat) (s : FareyState) :
    fareyLoop num maxd (fuel + 1) s =
      (match fareyStep num maxd s with
       | .done rn rd => some (rn, rd)
       | .cont s2 => fareyLoop num maxd fuel s2) := rfl

theorem fromFloat_den_bound_C6_witness : (0 : Int) ≤ 1 ∧ (1 : Int) ≤ 1 := by
  refine ⟨by omega, fromFloat_den_bound_C6 0 1 2 0 1 (le_refl 1) ?_⟩
  have s1 : fareyStep 0 1 fareyInit = .cont ⟨0, 1, 1, 1⟩ := by
    norm_num [fareyStep, fareyInit]
  have s2 : fareyStep 0 1 ⟨0, 1, 1, 1⟩ = .done 0 1 := by
    norm_num [fareyStep]
  have hl : fareyLoop 0 1 2 fareyInit = some (0, 1) := by
    rw [show (2 : Nat) = 1 + 1 from rfl, fareyLoop_succ, s1]
    dsimp only
    rw [show (1 : Nat) = 0 + 1 from rfl, fareyLoop_succ, s2]
  unfold BqFromLongDouble
  rw [if_neg (lt_irrefl (0 : ℚ)), hl]
  dsimp only
  rw [if_neg (lt_irrefl (0 : ℚ)), one_mul, createInternal_zero .set one_pos]

theorem fareyStep_cont_inv {x : ℚ} {maxd : Int} {s s2 : FareyState}
    (hinv : FareyInv s) (h : fareyStep x maxd s = .cont s2) :
    FareyInv s2 ∧ fareyMeasure x maxd s2 < fareyMeasure x maxd s := by
  obtain ⟨i1, i2, i3, i4, i5⟩ := hinv
  unfold fareyStep at h
  by_cases h1 : x * ((s.ld + s.ud : Int) : ℚ) > ((s.ln + s.un : Int) : ℚ)
  · rw [if_pos h1] at h
    by_cases h2 : maxd < s.ld + s.ud
    · rw [if_pos h2] at h
      exact FareyOut.noConfusion h
    · rw [if_neg h2] at h
      cases h
      constructor
      · refine ⟨by dsimp only; omega, by dsimp only; omega, by dsimp only; omega,
          by dsimp only; omega, ?_⟩
        intro hud
        dsimp only at hud ⊢
        obtain ⟨e1, e2⟩ := i5 hud
        omega
      · by_cases hud : s.ud = 0
        · obtain ⟨hld1, hun1⟩ := i5 hud
          have hC : s.ln < ⌈x⌉ := by
            refine Int.lt_ceil.mpr ?_
            rw [hud, hld1, hun1] at h1
            push_cast at h1
            linarith
          unfold fareyMeasure
          dsimp only
          rw [if_pos hud, if_pos hud]
          omega
        · unfold fareyMeasure
          dsimp only
          rw [if_neg hud, if_neg hud]
          omega
  · rw [if_neg h1] at h
    by_cases h3 : x * ((s.ld + s.ud : Int) : ℚ) = ((s.ln + s.un : Int) : ℚ)
    · rw [if_pos h3] at h
      split_ifs at h
    · rw [if_neg h3] at h
      by_cases h4 : maxd < s.ld + s.ud
      · rw [if_pos h4] at h
        exact FareyOut.noConfusion h
      · rw [if_neg h4] at h
        cases h
        constructor
        · refine ⟨by dsimp only; omega, by dsimp only; omega, by dsimp only; omega,
            by dsimp only; omega, ?_⟩
          intro hud
          dsimp only at hud
          omega
        · unfold fareyMeasure
          dsimp only
          by_cases hud : s.ud = 0
          · rw [if_pos hud, if_neg (by omega)]
            omega
          · rw [if_neg hud, if_neg (by omega)]
            omega

theorem fareyLoop_isSome (x : ℚ) (maxd : Int) :
    ∀ (fuel : Nat) (s : FareyState), FareyInv s → fareyMeasure x maxd s < fuel →
      (fareyLoop x maxd fuel s).isSome := by
  intro fuel
  induction fuel with
  | zero =>
    intro s _ hm
    omega
  | succ f ih =>
    intro s hinv hm
    rw [fareyLoop_succ]
    rcases hstep : fareyStep x maxd s with ⟨rn, rd⟩ | s2
    · simp
    · obtain ⟨hinv2, hm2⟩ := fareyStep_cont_inv hinv hstep
      dsimp only
      exact ih s2 hinv2 (by omega)

/-- C7 counterexample: with input 5/2 and maxDenominator 10, the very first
loop iteration is a continuing step (the lower bound moves to the mediant
1/1) yet the sum of the bound denominators does not strictly grow: the upper
denominator is still 0, so the sum stays at 1. -/
theorem farey_sum_growth_C7_counterexample :
    fareyStep (5 / 2 : ℚ) 10 fareyInit = .cont ⟨1, 1, 1, 0⟩ ∧
    ¬ (fareyInit.ld + fareyInit.ud <
        (FareyState.mk 1 1 1 0).ld + (FareyState.mk 1 1 1 0).ud) := by
  constructor
  · norm_num [fareyStep, fareyInit]
  · norm_num [fareyInit]

/-- C7 (amended): for every input value (embedded as an exact rational) and
every maxDenominator, the Farey loop terminates after finitely many
iterations (some finite fuel makes `fromFloat` return); whenever the mediant
denominator exceeds maxDenominator, every branch exits; and on reachable
states the sum of the bound denominators never decreases on a continuing
step, growing strictly once the upper bound's denominator is nonzero (while
it is zero the lower numerator grows towards the value instead, which is the
reason the claim's "strictly grows each continuing step" fails). -/
theorem farey_terminates_C7 (num : ℚ) (maxd : Int) :
    (∃ fuel, (BqFromLongDouble num maxd fuel).isSome) ∧
    (∀ s : FareyState, maxd < s.ld + s.ud →
        ∃ rn rd : Int, fareyStep num maxd s = .done rn rd) ∧
    (∀ s s2 : FareyState, FareyInv s → fareyStep num maxd s = .cont s2 →
        s.ld + s.ud ≤ s2.ld + s2.ud ∧
        (1 ≤ s.ud → s.ld + s.ud < s2.ld + s2.ud)) := by
  refine ⟨?_, ?_, ?_⟩
  · refine ⟨fareyMeasure (if num < 0 then -num else num) maxd fareyInit + 1, ?_⟩
    unfold BqFromLongDouble
    have hsome := fareyLoop_isSome (if num < 0 then -num else num) maxd
      (fareyMeasure (if num < 0 then -num else num) maxd fareyInit + 1) fareyInit
      ⟨by norm_num [fareyInit], by norm_num [fareyInit], by norm_num [fareyInit],
       by norm_num [fareyInit], fun _ => ⟨rfl, rfl⟩⟩
      (by omega)
    obtain ⟨r, hr⟩ := Option.isSome_iff_exists.mp hsome
    rw [hr]
    rcases r with ⟨rn, rd⟩
    simp
  · intro s hmd
    unfold fareyStep
    by_cases h1 : num * ((s.ld + s.ud : Int) : ℚ) > ((s.ln + s.un : Int) : ℚ)
    · rw [if_pos h1, if_pos hmd]
      exact ⟨s.un, s.ud, rfl⟩
    · rw [if_neg h1]
      by_cases h3 : num * ((s.ld + s.ud : Int) : ℚ) = ((s.ln + s.un : Int) : ℚ)
      · rw [if_pos h3, if_neg (by omega)]
        by_cases h5 : s.ld < s.ud
        · rw [if_pos h5]
          exact ⟨s.ln, s.ld, rfl⟩
        · rw [if_neg h5]
          exact ⟨s.un, s.ud, rfl⟩
      · rw [if_neg h3, if_pos hmd]
        exact ⟨s.ln, s.ld, rfl⟩
  · intro s s2 hinv h
    obtain ⟨i1, i2, i3, i4, i5⟩ := hinv
    unfold fareyStep at h
    by_cases h1 : num * ((s.ld + s.ud : Int) : ℚ) > ((s.ln + s.un : Int) : ℚ)
    · rw [if_pos h1] at h
      by_cases h2 : maxd < s.ld + s.ud
      · rw [if_pos h2] at h
        exact FareyOut.noConfusion h
      · rw [if_neg h2] at h
        cases h
        dsimp only
        omega
    · rw [if_neg h1] at h
      by_cases h3 : num * ((s.ld + s.ud : Int) : ℚ) = ((s.ln + s.un : Int) : ℚ)
      · rw [if_pos h3] at h
        split_ifs at h
      · rw [if_neg h3] at h
        by_cases h4 : maxd < s.ld + s.ud
        · rw [if_pos h4] at h
          exact FareyOut.noConfusion h
        · rw [if_neg h4] at h
          cases h
          dsimp only
          omega

theorem farey_terminates_C7_witness :
    (∃ fuel, (BqFromLongDouble (5 / 2 : ℚ) 10 fuel).isSome) ∧
    (∃ rn rd : Int, fareyStep (5 / 2 : ℚ) 0 fareyInit = .done rn rd) :=
  ⟨(farey_terminates_C7 (5 / 2 : ℚ) 10).1,
   (farey_terminates_C7 (5 / 2 : ℚ) 0).2.1 fareyInit (by norm_num [fareyInit])⟩

theorem digitOfChar_charOfDigit : ∀ d : Nat, d < 36 → digitOfChar (charOfDigit d) = some d := by
  decide

theorem charOfDigit_not_special : ∀ d : Nat, d < 36 →
    charOfDigit d ≠ '/' ∧ charOfDigit d ≠ '+' ∧ charOfDigit d ≠ '-' ∧
      bqIsSpace (charOfDigit d) = false := by
  decide

theorem isDigitChar_charOfDigit {base d : Nat} (hb : base ≤ 36) (hd : d < base) :
    isDigitChar base (charOfDigit d) = true := by
  unfold isDigitChar
  rw [digitOfChar_charOfDigit d (by omega)]
  simpa using hd

theorem isDigitChar_not_special {base : Nat} {c : Char} (h : isDigitChar base c = true) :
    c ≠ '/' ∧ c ≠ '+' ∧ c ≠ '-' ∧ bqIsSpace c = false := by
  refine ⟨?_, ?_, ?_, ?_⟩
  · rintro rfl
    exact Bool.noConfusion h
  · rintro rfl
    exact Bool.noConfusion h
  · rintro rfl
    exact Bool.noConfusion h
  · by_cases hs : c = ' '
    · subst hs
      exact Bool.noConfusion h
    · by_cases ht : c = '\t'
      · subst ht
        exact Bool.noConfusion h
      · by_cases hn : c = '\n'
        · subst hn
          exact Bool.noConfusion h
        · by_cases hr : c = '\r'
          · subst hr
            exact Bool.noConfusion h
          · unfold bqIsSpace
            simp [hs, ht, hn, hr]

theorem digitsFuel_lt {base : Nat} (hb : 2 ≤ base) :
    ∀ (f n : Nat), ∀ d ∈ digitsFuel base f n, d < base := by
  intro f
  induction f with
  | zero =>
    intro n d hd
    simp [digitsFuel] at hd
  | succ f ih =>
    intro n d hd
    match n with
    | 0 => simp [digitsFuel] at hd
    | m + 1 =>
      simp only [digitsFuel, List.mem_cons] at hd
      rcases hd with hd | hd
      · subst hd
        exact Nat.mod_lt _ (by omega)
      · exact ih _ d hd

theorem ofDigitsLE_digitsFuel {base : Nat} (hb : 2 ≤ base) :
    ∀ (f n : Nat), n ≤ f → ofDigitsLE base (digitsFuel base f n) = n := by
  intro f
  induction f with
  | zero =>
    intro n h
    have : n = 0 := by omega
    subst this
    rfl
  | succ f ih =>
    intro n h
    match n with
    | 0 => rfl
    | m + 1 =>
      have hdiv : (m + 1) / base ≤ f := by
        have h2 : (m + 1) / base < m + 1 := Nat.div_lt_self (by omega) (by omega)
        omega
      simp only [digitsFuel, ofDigitsLE]
      rw [ih _ hdiv]
      exact Nat.mod_add_div (m + 1) base

theorem digitsFuel_ne_nil {base : Nat} (f m : Nat) :
    digitsFuel base (f + 1) (m + 1) ≠ [] := by
  simp [digitsFuel]

theorem foldl_reverse_ofLE (base : Nat) :
    ∀ (ds : List Nat) (acc : Nat),
      List.foldl (fun a d => a * base + d) acc ds.reverse =
        acc * base ^ ds.length + ofDigitsLE base ds := by
  intro ds
  induction ds with
  | nil =>
    intro acc
    simp [ofDigitsLE]
  | cons d ds ih =>
    intro acc
    simp only [List.reverse_cons, List.foldl_append, List.foldl_cons, List.foldl_nil,
      ofDigitsLE, List.length_cons]
    rw [ih acc]
    ring

theorem parseDigitsAux_stop {base : Nat} {rest : List Char}
    (h : headIsDigit base rest = false) (acc k : Nat) :
    parseDigitsAux base rest acc k = (acc, k, rest) := by
  match rest with
  | [] => rfl
  | c :: t =>
    simp only [headIsDigit, isDigitChar] at h
    unfold parseDigitsAux
    rcases hd : digitOfChar c with _ | dv <;> dsimp only at h ⊢
    rw [hd] at h
    dsimp only at h
    rw [if_neg (by simpa using h)]

theorem parseDigitsAux_run {base : Nat} (hb : base ≤ 36) :
    ∀ (ds : List Nat) (rest : List Char) (acc k : Nat),
      (∀ d ∈ ds, d < base) → headIsDigit base rest = false →
      parseDigitsAux base (ds.map charOfDigit ++ rest) acc k =
        (List.foldl (fun a d => a * base + d) acc ds, k + ds.length, rest) := by
  intro ds
  induction ds with
  | nil =>
    intro rest acc k _ hrest
    simpa using parseDigitsAux_stop hrest acc k
  | cons d ds ih =>
    intro rest acc k hds hrest
    have hdb : d < base := hds d (List.mem_cons_self d ds)
    simp only [List.map_cons, List.cons_append]
    unfold parseDigitsAux
    rw [digitOfChar_charOfDigit d (by omega)]
    dsimp only
    rw [if_pos hdb]
    rw [ih rest (acc * base + d) (k + 1) (fun x hx => hds x (List.mem_cons_of_mem d hx)) hrest]
    simp only [List.foldl_cons, List.length_cons]
    have : k + 1 + ds.length = k + (ds.length + 1) := by omega
    rw [this]

theorem natDigitsBE_ne_nil (base n : Nat) : natDigitsBE base n ≠ [] := by
  unfold natDigitsBE
  by_cases hn : n = 0
  · simp [hn]
  · rw [if_neg hn]
    match n, hn with
    | m + 1, _ =>
      simp [digitsFuel]

theorem natDigitsBE_all_digits {base : Nat} (hb2 : 2 ≤ base) (hb36 : base ≤ 36) (n : Nat) :
    ∀ c ∈ natDigitsBE base n, isDigitChar base c = true := by
  intro c hc
  unfold natDigitsBE at hc
  by_cases hn : n = 0
  · rw [if_pos hn] at hc
    simp only [List.mem_singleton] at hc
    subst hc
    have h0 : ('0' : Char) = charOfDigit 0 := rfl
    rw [h0]
    exact isDigitChar_charOfDigit hb36 (by omega)
  · rw [if_neg hn] at hc
    rw [List.mem_reverse] at hc
    obtain ⟨d, hd, rfl⟩ := List.mem_map.mp hc
    exact isDigitChar_charOfDigit hb36 (digitsFuel_lt hb2 _ _ d hd)

theorem parse_natDigitsBE {base : Nat} (hb2 : 2 ≤ base) (hb36 : base ≤ 36)
    (n : Nat) {rest : List Char} (hrest : headIsDigit base rest = false) :
    parseDigitsAux base (natDigitsBE base n ++ rest) 0 0 =
      (n, (natDigitsBE base n).length, rest) := by
  unfold natDigitsBE
  by_cases hn : n = 0
  · subst hn
    rw [if_pos rfl]
    have hrun := parseDigitsAux_run hb36 [0] rest 0 0 (by
      intro d hd
      simp only [List.mem_singleton] at hd
      omega) hrest
    simpa [charOfDigit] using hrun
  · rw [if_neg hn]
    have hmap : ((digitsFuel base n n).map charOfDigit).reverse
        = ((digitsFuel base n n).reverse).map charOfDigit := by
      rw [List.map_reverse]
    rw [hmap]
    rw [parseDigitsAux_run hb36 _ rest 0 0
      (fun d hd => digitsFuel_lt hb2 _ _ d (List.mem_reverse.mp hd)) hrest]
    rw [foldl_reverse_ofLE, ofDigitsLE_digitsFuel hb2 n n (le_refl n)]
    simp

theorem bzSignSplit_digit {base : Nat} {c : Char} (h : isDigitChar base c = true)
    (t : List Char) : bzSignSplit (c :: t) = (false, c :: t) := by
  obtain ⟨_, hplus, hminus, _⟩ := isDigitChar_not_special h
  unfold bzSignSplit
  dsimp only
  rw [if_neg hminus, if_neg hplus]

theorem bzSignSplit_minus (t : List Char) : bzSignSplit ('-' :: t) = (true, t) := by
  unfold bzSignSplit
  dsimp only
  rw [if_pos rfl]

theorem bzSignSplit_plus (t : List Char) : bzSignSplit ('+' :: t) = (false, t) := by
  unfold bzSignSplit
  dsimp only
  rw [if_neg (by decide), if_pos rfl]

theorem BzFromString_core {base : Nat} {delim : BzDelim} (m : Nat)
    {mag rest : List Char} {v : Nat} {neg : Bool} {s : List Char}
    (hsplit : bzSignSplit s = (neg, mag ++ rest))
    (hparse : parseDigitsAux base (mag ++ rest) 0 0 = (v, mag.length, rest))
    (hm : mag.length = m + 1) (hok : bzDelimOk delim rest = true) :
    BzFromString s base delim = some (if neg then -(v : Int) else (v : Int)) := by
  unfold BzFromString
  rw [hsplit]
  dsimp only
  rw [hparse, hm]
  dsimp only
  rw [if_pos hok]

theorem natDigitsBE_cons (base n : Nat) :
    ∃ c t, natDigitsBE base n = c :: t := by
  have hne := natDigitsBE_ne_nil base n
  match hE : natDigitsBE base n with
  | [] => exact absurd hE hne
  | c :: t => exact ⟨c, t, rfl⟩

theorem BzFromString_BzToString {base : Nat} (hb2 : 2 ≤ base) (hb36 : base ≤ 36)
    (z : Int) (force : Bool) (delim : BzDelim) (rest : List Char)
    (hrest : headIsDigit base rest = false) (hok : bzDelimOk delim rest = true) :
    BzFromString (BzToString z base force ++ rest) base delim = some z := by
  obtain ⟨c, t, hE⟩ := natDigitsBE_cons base z.natAbs
  have hm : (natDigitsBE base z.natAbs).length = t.length + 1 := by rw [hE]; rfl
  have hparse := parse_natDigitsBE hb2 hb36 z.natAbs hrest
  have hdigits := natDigitsBE_all_digits hb2 hb36 z.natAbs
  have hcdig : isDigitChar base c = true := hdigits c (by rw [hE]; exact List.mem_cons_self c t)
  rcases lt_trichotomy z 0 with hz | hz | hz
  · have hts : BzToString z base force ++ rest
        = '-' :: (natDigitsBE base z.natAbs ++ rest) := by
      unfold BzToString
      rw [if_pos hz]
      rfl
    rw [hts, BzFromString_core t.length (bzSignSplit_minus _) hparse hm hok, if_pos rfl]
    congr 1
    omega
  · have hts : BzToString z base force ++ rest
        = natDigitsBE base z.natAbs ++ rest := by
      unfold BzToString
      rw [if_neg (by omega), if_neg (by simp; omega)]
    have hsplit : bzSignSplit (natDigitsBE base z.natAbs ++ rest)
        = (false, natDigitsBE base z.natAbs ++ rest) := by
      rw [hE, List.cons_append, bzSignSplit_digit hcdig, ← List.cons_append, ← hE]
    rw [hts, BzFromString_core t.length hsplit hparse hm hok, if_neg Bool.false_ne_true]
    congr 1
    omega
  · by_cases hf : force
    · have hts : BzToString z base force ++ rest
          = '+' :: (natDigitsBE base z.natAbs ++ rest) := by
        unfold BzToString
        rw [if_neg (by omega), if_pos ⟨hf, hz⟩]
        rfl
      rw [hts, BzFromString_core t.length (bzSignSplit_plus _) hparse hm hok,
        if_neg Bool.false_ne_true]
      congr 1
      omega
    · have hts : BzToString z base force ++ rest
          = natDigitsBE base z.natAbs ++ rest := by
        unfold BzToString
        rw [if_neg (by omega), if_neg (by simp [hf])]
      have hsplit : bzSignSplit (natDigitsBE base z.natAbs ++ rest)
          = (false, natDigitsBE base z.natAbs ++ rest) := by
        rw [hE, List.cons_append, bzSignSplit_digit hcdig, ← List.cons_append, ← hE]
      rw [hts, BzFromString_core t.length hsplit hparse hm hok, if_neg Bool.false_ne_true]
      congr 1
      omega

theorem BzFromString_BzToString_nil {base : Nat} (hb2 : 2 ≤ base) (hb36 : base ≤ 36)
    (z : Int) (force : Bool) (delim : BzDelim) :
    BzFromString (BzToString z base force) base delim = some z := by
  have hok : bzDelimOk delim [] = true := by cases delim <;> rfl
  have := BzFromString_BzToString hb2 hb36 z force delim [] rfl hok
  simpa using this

theorem dropWhile_cons_false {p : Char → Bool} {c : Char} {l : List Char} (h : p c = false) :
    (c :: l).dropWhile p = c :: l := by
  simp [List.dropWhile, h]

theorem dropWhile_cons_true {p : Char → Bool} {c : Char} {l : List Char} (h : p c = true) :
    (c :: l).dropWhile p = l.dropWhile p := by
  simp [List.dropWhile, h]

theorem dropWhile_notSlash_nil {l : List Char} (h : ∀ x ∈ l, x ≠ '/') :
    l.dropWhile bqNotSlash = [] := by
  induction l with
  | nil => rfl
  | cons c t ih =>
    have hc : c ≠ '/' := h c (List.mem_cons_self c t)
    have hb : bqNotSlash c = true := by
      unfold bqNotSlash
      simp [hc]
    simp [List.dropWhile, hb, ih (fun x hx => h x (List.mem_cons_of_mem c hx))]

theorem dropWhile_notSlash_append {l r : List Char} (h : ∀ x ∈ l, x ≠ '/') :
    (l ++ '/' :: r).dropWhile bqNotSlash = '/' :: r := by
  induction l with
  | nil =>
    simp only [List.nil_append]
    exact dropWhile_cons_false (by unfold bqNotSlash; simp)
  | cons c t ih =>
    have hc : c ≠ '/' := h c (List.mem_cons_self c t)
    have hb : bqNotSlash c = true := by
      unfold bqNotSlash
      simp [hc]
    rw [List.cons_append, dropWhile_cons_true hb]
    exact ih (fun x hx => h x (List.mem_cons_of_mem c hx))

theorem toString_ne_nil (z : Int) (base : Nat) (force : Bool) :
    BzToString z base force ≠ [] := by
  unfold BzToString
  split_ifs <;> simp [natDigitsBE_ne_nil]

theorem toString_dropSpace {base : Nat} (hb2 : 2 ≤ base) (hb36 : base ≤ 36)
    (z : Int) (force : Bool) (rest : List Char) :
    (BzToString z base force ++ rest).dropWhile bqIsSpace = BzToString z base force ++ rest := by
  obtain ⟨c, t, hE⟩ := natDigitsBE_cons base z.natAbs
  have hcdig := natDigitsBE_all_digits hb2 hb36 z.natAbs c
    (by rw [hE]; exact List.mem_cons_self c t)
  obtain ⟨_, _, _, hspace⟩ := isDigitChar_not_special hcdig
  unfold BzToString
  split_ifs
  · rw [List.cons_append]
    exact dropWhile_cons_false rfl
  · rw [List.cons_append]
    exact dropWhile_cons_false rfl
  · rw [hE, List.cons_append]
    exact dropWhile_cons_false hspace

theorem bqAfterSign_toString {base : Nat} (hb2 : 2 ≤ base) (hb36 : base ≤ 36)
    (z : Int) (force : Bool) (rest : List Char) :
    bqAfterSign (BzToString z base force ++ rest) = natDigitsBE base z.natAbs ++ rest := by
  obtain ⟨c, t, hE⟩ := natDigitsBE_cons base z.natAbs
  have hcdig := natDigitsBE_all_digits hb2 hb36 z.natAbs c
    (by rw [hE]; exact List.mem_cons_self c t)
  obtain ⟨_, hplus, hminus, _⟩ := isDigitChar_not_special hcdig
  unfold BzToString
  split_ifs
  · rw [List.cons_append]
    unfold bqAfterSign
    dsimp only
    rw [if_pos (by decide)]
  · rw [List.cons_append]
    unfold bqAfterSign
    dsimp only
    rw [if_pos (by decide)]
  · rw [hE, List.cons_append]
    unfold bqAfterSign
    dsimp only
    rw [if_neg (by simp [hplus, hminus]), ← List.cons_append, ← hE]

/-- C4: for every canonical rational value, every base in 2..36 and either
sign policy, parsing the serialized text back yields the same value:
`fromString(toString(q, base, sign), base) = q`.  The serialized text is the
bare numerator when the denominator is 1, otherwise
`numerator/denominator`; parsing reduces through the full construction,
which leaves an already-canonical pair unchanged. -/
theorem roundtrip_C4 (n d : Int) (base : Nat) (force : Bool)
    (hb2 : 2 ≤ base) (hb36 : base ≤ 36) (hcan : IsCanonical (n, d)) :
    BqFromString (BqToStringHeap (some (n, d)) base force) base = some (n, d) := by
  obtain ⟨hd, hg⟩ := hcan
  simp only at hd hg
  obtain ⟨c, t, hE⟩ := natDigitsBE_cons base n.natAbs
  have hdigitsN := natDigitsBE_all_digits hb2 hb36 n.natAbs
  have hcdig := hdigitsN c (by rw [hE]; exact List.mem_cons_self c t)
  obtain ⟨hslash, hplus, hminus, hspace⟩ := isDigitChar_not_special hcdig
  have hsigncond : ¬((c = '+' || c = '-') = true) := by simp [hplus, hminus]
  by_cases hd1 : d = 1
  · subst hd1
    have hheap : BqToStringHeap (some (n, 1)) base force = BzToString n base force := by
      unfold BqToStringHeap
      dsimp only
      rw [if_pos (show BzLength 1 = 1 from rfl)]
    rw [hheap]
    unfold BqFromString
    rw [if_neg (toString_ne_nil n base force)]
    have hds : (BzToString n base force).dropWhile bqIsSpace = BzToString n base force := by
      have := toString_dropSpace hb2 hb36 n force []
      simpa using this
    rw [hds]
    have haf : bqAfterSign (BzToString n base force) = natDigitsBE base n.natAbs := by
      have := bqAfterSign_toString hb2 hb36 n force []
      simpa using this
    rw [haf, hE]
    dsimp only
    rw [if_neg hsigncond]
    have hslashdrop : (c :: t).dropWhile bqNotSlash = [] := by
      refine dropWhile_notSlash_nil ?_
      intro x hx
      exact (isDigitChar_not_special (hdigitsN x (by rw [hE]; exact hx))).1
    rw [hslashdrop]
    dsimp only
    rw [BzFromString_BzToString_nil hb2 hb36 n force .untilSpace]
    dsimp only
    exact create_of_canonical .set ⟨hd, hg⟩
  · have hn0 : n ≠ 0 := by
      intro h0
      subst h0
      have : d.natAbs = 1 := by simpa [Int.gcd] using hg
      omega
    have hlen : ¬ BzLength d = 1 := by
      rw [BzLength_one_iff hd]
      exact hd1
    have hheap : BqToStringHeap (some (n, d)) base force
        = BzToString n base force ++ '/' :: BzToString d base false := by
      unfold BqToStringHeap
      dsimp only
      rw [if_neg hlen]
    have hdstr : BzToString d base false = natDigitsBE base d.natAbs := by
      unfold BzToString
      rw [if_neg (by omega), if_neg (by simp)]
    obtain ⟨c2, t2, hE2⟩ := natDigitsBE_cons base d.natAbs
    have hdigitsD := natDigitsBE_all_digits hb2 hb36 d.natAbs
    have hc2dig := hdigitsD c2 (by rw [hE2]; exact List.mem_cons_self c2 t2)
    obtain ⟨hslash2, hplus2, hminus2, hspace2⟩ := isDigitChar_not_special hc2dig
    have hs2 : c2 ≠ ' ' := by
      intro hcontra
      subst hcontra
      exact absurd hspace2 (by decide)
    rw [hheap]
    unfold BqFromString
    rw [if_neg (by
      intro hcontra
      exact toString_ne_nil n base force (List.append_eq_nil.mp hcontra).1)]
    rw [toString_dropSpace hb2 hb36 n force _]
    rw [bqAfterSign_toString hb2 hb36 n force _]
    rw [hE, List.cons_append]
    dsimp only
    rw [if_neg hsigncond]
    rw [← List.cons_append]
    rw [dropWhile_notSlash_append
      (fun x hx => (isDigitChar_not_special (hdigitsN x (by rw [hE]; exact hx))).1)]
    dsimp only
    rw [hdstr, hE2]
    dsimp only
    rw [if_neg (by simp [hplus2, hminus2, hs2])]
    rw [BzFromString_BzToString hb2 hb36 n force .untilSlash ('/' :: c2 :: t2)
      (show headIsDigit base ('/' :: c2 :: t2) = false from rfl)
      (show bzDelimOk .untilSlash ('/' :: c2 :: t2) = true from rfl)]
    dsimp only
    rw [show (c2 :: t2 : List Char) = BzToString d base false from by rw [hdstr, hE2]]
    rw [BzFromString_BzToString_nil hb2 hb36 d false .untilSpace]
    dsimp only
    exact create_of_canonical .set ⟨hd, hg⟩

theorem roundtrip_C4_witness :
    BqFromString (BqToStringHeap (some (-3, 7)) 10 true) 10 = some (-3, 7) :=
  roundtrip_C4 (-3) 7 10 true (by omega) (by omega) (by decide)

end BigQ
